import Mathlib

/-!
# Verification of the MarketWatch scrapper pipeline

Shallow embedding of `src/marketwatch_scrapper/marketwatch_scrapper.py`.
Python strings are modelled as `List Char`; string literals are written
`(r"...").data`.  Fallible Python code (code that can raise) is modelled
with `Except PyErr`.  Network fetches and the external page parser are
modelled as oracle function parameters, since their behaviour is outside
the repository.  All string primitives below are translated from the
Python builtins / `re` idioms the source uses, with structural (fuel
based where needed) recursion so that concrete runs reduce in the kernel.
-/

namespace MW

/-- Python exception kinds relevant to the embedded code paths. -/
inductive PyErr where
  | typeError
  | indexError
deriving DecidableEq

/-- The literal `"http://"`. -/
def httpPat : List Char := (r"http://").data

/-- The literal `"https://"`. -/
def httpsPat : List Char := (r"https://").data

/-- Python `sep in s` (contiguous substring test) for a pattern `sep`. -/
def occursB (sep : List Char) : List Char → Bool
  | [] => sep.isEmpty
  | c :: rest => sep.isPrefixOf (c :: rest) || occursB sep rest

/-- Helper for Python `s.rsplit(sep, 1)[-1]`: `some r` when `sep` occurs in
`s` and `r` is the suffix after the rightmost occurrence, `none` when `sep`
does not occur. -/
def afterLastOccAux (sep : List Char) : List Char → Option (List Char)
  | [] => none
  | c :: rest =>
    match afterLastOccAux sep rest with
    | some r => some r
    | none =>
      if sep.isPrefixOf (c :: rest) then some (rest.drop (sep.length - 1)) else none

/-- Python `s.rsplit(sep, 1)[-1]` for a non-empty `sep`: the suffix of `s`
after the rightmost occurrence of `sep`, or `s` itself when `sep` does not
occur in `s`. -/
def afterLastOcc (sep s : List Char) : List Char :=
  (afterLastOccAux sep s).getD s

/-- Python `s.split(sep)` for a single-character separator. -/
def pySplitChar (sep : Char) : List Char → List (List Char)
  | [] => [[]]
  | c :: rest =>
    let r := pySplitChar sep rest
    if c = sep then [] :: r else (c :: r.headD []) :: r.tail

/-- Python `sep.join(parts)` for a single-character separator. -/
def joinSep (sep : Char) : List (List Char) → List Char
  | [] => []
  | [g] => g
  | g :: g' :: gs => g ++ sep :: joinSep sep (g' :: gs)

/-- Python `s.strip()`. -/
def pyStrip (s : List Char) : List Char :=
  ((s.dropWhile Char.isWhitespace).reverse.dropWhile Char.isWhitespace).reverse

/-- Fuel-driven worker for Python `s.replace(old, new)` (all non-overlapping
occurrences, scanning left to right).  `fuel ≥ s.length` makes it total. -/
def pyReplaceFuel (old new : List Char) : Nat → List Char → List Char
  | _, [] => []
  | 0, s => s
  | fuel + 1, c :: rest =>
    if old.isPrefixOf (c :: rest) then
      new ++ pyReplaceFuel old new fuel (rest.drop (old.length - 1))
    else
      c :: pyReplaceFuel old new fuel rest

/-- Python `s.replace(old, new)` for non-empty `old`. -/
def pyReplace (old new s : List Char) : List Char :=
  pyReplaceFuel old new s.length s

/-- `len(re.findall(r'\d', s))`: number of digit characters in `s`. -/
def countDigits (s : List Char) : Nat :=
  (s.filter Char.isDigit).length

/-- Fuel-driven worker for `re.findall(r'\d{14}', s)`: the non-overlapping
runs of exactly 14 digits found scanning left to right. -/
def findall14Fuel : Nat → List Char → List (List Char)
  | 0, _ => []
  | _ + 1, [] => []
  | fuel + 1, c :: rest =>
    let w := (c :: rest).take 14
    if w.length = 14 ∧ w.all Char.isDigit then
      w :: findall14Fuel fuel ((c :: rest).drop 14)
    else
      findall14Fuel fuel rest

/-- Source line 208: `'timestamp': re.findall(r'\d{14}', url)` — the value the
code stores in the `timestamp` field is the whole Python list of matches. -/
def timestampField (url : List Char) : List (List Char) :=
  findall14Fuel url.length url

/-- `re.findall(r'\d{8}$', s)`: a single match (the last 8 characters) when
`s` ends in at least 8 digits, else no match. -/
def findall8End (s : List Char) : List (List Char) :=
  if 8 ≤ s.length ∧ (s.drop (s.length - 8)).all Char.isDigit then
    [s.drop (s.length - 8)]
  else
    []

/-- Models `datetime.date` (what `newspaper`'s parser yields for
`publish_date`, and what `strptime(...).date()` produces). -/
structure PDate where
  year : Nat
  month : Nat
  day : Nat

/-- Gregorian leap-year rule, as `datetime` implements it. -/
def isLeap (y : Nat) : Bool :=
  (y % 4 == 0) && (y % 100 != 0 || y % 400 == 0)

/-- Days in a month per `datetime`'s calendar. -/
def daysInMonth (y m : Nat) : Nat :=
  if m = 2 then (if isLeap y then 29 else 28)
  else if m = 4 ∨ m = 6 ∨ m = 9 ∨ m = 11 then 30
  else 31

/-- Numeric value of a decimal digit string. -/
def natOfDigits (s : List Char) : Nat :=
  s.foldl (fun n c => 10 * n + (c.toNat - 48)) 0

/-- `datetime.datetime.strptime(s, '%Y%m%d').date()` on an 8-character
string: `some` date when it parses, `none` when `ValueError` is raised
(month/day out of range, or year 0, which `datetime` rejects). -/
def strptime8 (s : List Char) : Option PDate :=
  if s.length = 8 ∧ s.all Char.isDigit then
    let y := natOfDigits (s.take 4)
    let m := natOfDigits ((s.drop 4).take 2)
    let d := natOfDigits (s.drop 6)
    if 1 ≤ y ∧ 1 ≤ m ∧ m ≤ 12 ∧ 1 ≤ d ∧ d ≤ daysInMonth y m then
      some ⟨y, m, d⟩
    else
      none
  else
    none

/-- Fuel-driven decimal rendering of a natural number (most significant
digit first); empty for 0, which `padNat` handles. -/
def natDigitsAux : Nat → Nat → List Char
  | 0, _ => []
  | fuel + 1, n =>
    if n = 0 then [] else natDigitsAux fuel (n / 10) ++ [Char.ofNat (48 + n % 10)]

/-- Zero-padded decimal rendering, as `strftime`'s `%Y`/`%m`/`%d` produce. -/
def padNat (w n : Nat) : List Char :=
  let ds := if n = 0 then ['0'] else natDigitsAux (n + 1) n
  List.replicate (w - ds.length) '0' ++ ds

/-- `date.strftime('%Y-%m-%d')`. -/
def strftimeIso (d : PDate) : List Char :=
  padNat 4 d.year ++ ['-'] ++ padNat 2 d.month ++ ['-'] ++ padNat 2 d.day

/-- Source lines 253-269: the date normalisation of `process_article_url`.
`publishDate` is the parser's `publish_date` (a `datetime` object or `None`),
`articleId` the metadata field `article.id` (defaulted to `''`).
Faithful to the source: when `publish_date` is truthy it is a `datetime`,
not a `str` of length 8, so the `isinstance(date, str) and len(date) == 8`
test fails and the `else` branch sets `date = None`, storing `''`.
When it is `None`, `re.findall(r'\d{8}$', ...)[0]` raises `IndexError` on no
match; otherwise the 8-digit string is parsed, with `ValueError` mapped to
`None` and hence `''`. -/
def dateField (publishDate : Option PDate) (articleId : List Char) :
    Except PyErr (List Char) :=
  match publishDate with
  | some _ => Except.ok []
  | none =>
    match findall8End articleId with
    | [] => Except.error PyErr.indexError
    | ds :: _ =>
      match strptime8 ds with
      | some d => Except.ok (strftimeIso d)
      | none => Except.ok []

/-- Source lines 226-235: `excluded_keywords = re.compile([...])`.
`re.compile` is given a Python *list* of pattern fragments; `re.compile`
accepts only a string or a compiled pattern, so this raises `TypeError`
unconditionally. -/
def compiledExcludedKeywords : Except PyErr Unit :=
  Except.error PyErr.typeError

/-- The exclusion test the eight pattern fragments describe (source lines
227-234 with their comments), read as independent patterns combined by
alternation — i.e. `re.compile('|'.join([...])).search(k)`: purely numeric,
starts with `LINK|`, contains `WSJ`, exactly `SYND`, contains `factiva`,
`filter`, `gfx-` or `factset`. -/
def isExcludedKeyword (k : List Char) : Bool :=
  (!k.isEmpty && k.all Char.isDigit)
  || (r"LINK|").data.isPrefixOf k
  || occursB (r"WSJ").data k
  || k == (r"SYND").data
  || occursB (r"factiva").data k
  || occursB (r"filter").data k
  || occursB (r"gfx-").data k
  || occursB (r"factset").data k

/-- Python `s.lower()` (ASCII case, which is all the code compares). -/
def toLowerList (s : List Char) : List Char :=
  s.map Char.toLower

/-- Source lines 225-243 and 267-268 *as intended* (the exclusion patterns
combined by alternation): split the raw keyword string on commas, drop
keywords matching the exclusion set, strip the literal `wsj` from
survivors, drop keywords whose lowercase form contains `factiva` or
`filter`, join with commas (the stored `keywords` is `.strip()`-ed);
`companies` re-splits the joined string and keeps entries containing
`US:`. -/
def keywordPipeline (raw : List Char) : List Char × List Char :=
  let kws := pySplitChar ',' raw
  let kws :=
    (kws.filter (fun k => !isExcludedKeyword k)).map
      (fun k => pyReplace (r"wsj").data [] k)
  let kws :=
    kws.filter (fun k =>
      !(occursB (r"factiva").data (toLowerList k)
        || occursB (r"filter").data (toLowerList k)))
  let keywords := joinSep ',' kws
  let companies :=
    joinSep ',' ((pySplitChar ',' keywords).filter
      (fun x => occursB (r"US:").data x))
  (pyStrip keywords, companies)

/-- Source lines 219-243 as written: the keyword section first evaluates
`re.compile([...])`, which raises `TypeError`, so the remaining lines
(which would compute `keywordPipeline`) are never reached. -/
def keywordSectionCode (raw : List Char) : Except PyErr (List Char × List Char) :=
  match compiledExcludedKeywords with
  | Except.error e => Except.error e
  | Except.ok _ => Except.ok (keywordPipeline raw)

/-- Source line 393 (and line 146): `x.rsplit('https://', 1)[-1]` — the
canonical key used to aggregate article-link variants. -/
def canonicalKey (u : List Char) : List Char :=
  afterLastOcc httpsPat u

/-- Source lines 147-152: the body of `is_article` after the scheme strip:
`False` when `'-' not in url`, else more than 3 digit characters in
`url.rsplit('-', 1)[-1]`. -/
def isArticleTail (url : List Char) : Bool :=
  if url.contains '-' then
    decide (3 < countDigits (afterLastOcc ['-'] url))
  else
    false

/-- Source lines 145-152: `is_article(url)`. -/
def is_article (url : List Char) : Bool :=
  isArticleTail (afterLastOcc httpsPat url)

/-- The classifier exactly as claim C5 words it: take the last '/'-separated
path segment of the URL; an article iff that segment contains a '-' and the
substring after its final '-' has more than 3 digit characters. -/
def isArticleClaimed (url : List Char) : Bool :=
  let seg := (pySplitChar '/' url).getLastD []
  if seg.contains '-' then
    decide (3 < countDigits (afterLastOcc ['-'] seg))
  else
    false

/-- The amended C5 classifier: after stripping everything up to and
including the last `https://`, the URL must contain a '-', and the
substring after its *final* '-' — taken over the whole remaining string,
path separators included — must contain more than 3 digit characters. -/
def isArticleAmended (url : List Char) : Bool :=
  let stripped := afterLastOcc httpsPat url
  stripped.contains '-' && decide (3 < countDigits (afterLastOcc ['-'] stripped))

/-- Lexicographic (code-point) order on char lists, as pandas sorts string
group keys. -/
def charListLe : List Char → List Char → Bool
  | [], _ => true
  | _ :: _, [] => false
  | a :: as, b :: bs =>
    if a < b then true else if b < a then false else charListLe as bs

/-- `charListLe` as a decidable relation for `List.insertionSort`. -/
def kLe (a b : List Char) : Prop := charListLe a b = true

instance : DecidableRel kLe := fun a b => instDecidableEqBool (charListLe a b) true

/-- Source lines 392-398: group the discovered links by
`x.rsplit('https://', 1)[-1]` (pandas `groupby` sorts the keys; within a
group the first-seen order of the raw URLs is preserved) and return the
per-group variant lists. -/
def get_article_link_groups (all_links : List (List Char)) :
    List (List (List Char)) :=
  let keys := (all_links.map canonicalKey).dedup
  (List.insertionSort kLe keys).map
    (fun k => all_links.filter (fun u => decide (canonicalKey u = k)))

/-- One CDX index record: `[timestamp, original]`. -/
structure CdxRow where
  ts : List Char
  original : List Char
deriving DecidableEq

/-- Source lines 334-340: `clean_url` — drop all `http://` then all
`https://` occurrences, split on '/', strip each piece, drop empty pieces,
re-join with '/'. -/
def cleanUrl (x : List Char) : List Char :=
  joinSep '/'
    (((pySplitChar '/' (pyReplace httpsPat [] (pyReplace httpPat [] x))).map
        pyStrip).filter (fun i => !i.isEmpty))

/-- Source lines 331-342 grouping key: (capture date, clean_url).  The
capture date of a well-formed 14-digit CDX timestamp is its first 8
digits. -/
def rowKey (r : CdxRow) : List Char × List Char :=
  (r.ts.take 8, cleanUrl r.original)

/-- Chronological order on rows (`df.sort_values(by='datetime')`): 14-digit
CDX timestamps compare chronologically as strings. -/
def rowLe (a b : CdxRow) : Prop := charListLe a.ts b.ts = true

instance : DecidableRel rowLe := fun a b => instDecidableEqBool (charListLe a.ts b.ts) true

/-- Order on (date, clean_url) group keys, as pandas sorts them. -/
def pairLe (a b : List Char × List Char) : Prop :=
  (if a.1 = b.1 then charListLe a.2 b.2 else charListLe a.1 b.1) = true

instance : DecidableRel pairLe :=
  fun a b =>
    instDecidableEqBool (if a.1 = b.1 then charListLe a.2 b.2 else charListLe a.1 b.1) true

/-- A linear congruential step: the concrete deterministic pseudo-random
source standing in for pandas' seeded generator. -/
def lcgNext (s : Nat) : Nat :=
  (1664525 * s + 1013904223) % 4294967296

/-- Draw `n` elements without replacement, deterministically from the seed:
repeatedly pick a pseudo-random index and remove the picked element. -/
def sampleAux {α : Type} : Nat → Nat → List α → List α
  | 0, _, _ => []
  | _ + 1, _, [] => []
  | n + 1, seed, x :: xs =>
    let i := lcgNext seed % (x :: xs).length
    (x :: xs).get ⟨i, Nat.mod_lt _ (Nat.succ_pos _)⟩ ::
      sampleAux n (lcgNext seed) ((x :: xs).eraseIdx i)

/-- Models `df.sample(n=n, replace=False, random_state=42)` (source lines
297-308): a deterministic, fixed-seed selection of `n` rows without
replacement.  The concrete pseudo-random sequence stands in for pandas'
seeded Mersenne Twister; the contract — determinism, no replacement, exact
size `n ≤ len` — is what the source relies on. -/
def sampleSeeded {α : Type} (n : Nat) (xs : List α) : List α :=
  sampleAux n 42 xs

/-- Concatenation of the images of `f` (the shape of a pandas
`groupby(...).apply(...)` result and of list-comprehension fan-outs). -/
def concatMap {α β : Type} (f : α → List β) : List α → List β
  | [] => []
  | a :: as => f a ++ concatMap f as

/-- Source lines 297-308 and 329-346: sort records chronologically, group
by (capture date, clean_url) — pandas sorts the group keys — and from each
group draw `min n (group size)` records with the fixed-seed sampler. -/
def sampleGroups (n : Nat) (rows : List CdxRow) : List CdxRow :=
  let sorted := List.insertionSort rowLe rows
  let keys := (sorted.map rowKey).dedup
  concatMap
    (fun k =>
      let g := sorted.filter (fun r => decide (rowKey r = k))
      sampleSeeded (min n g.length) g)
    (List.insertionSort pairLe keys)

/-- Source lines 16-29: the 12 topic paths. -/
def TOPICS : List (List Char) :=
  [(r"/investing/technology").data,
   (r"/investing/autos").data,
   (r"/investing/banking").data,
   (r"/markets/us").data,
   (r"/investing/industries").data,
   (r"/investing/stocks").data,
   (r"/investing/internet-online-services").data,
   (r"/investing/retail").data,
   (r"/latest-news").data,
   (r"/markets/financial-markets").data,
   (r"/investing/software").data,
   (r"/markets").data]

/-- Source lines 123-142: `cdx_query`.  The fetch result is `none` when
`safe_get` failed (all retries exhausted / request exception), otherwise
the parsed JSON rows.  The code returns `[]` on a failed fetch and
otherwise drops the header row; an empty remainder is logged and returned
as-is. -/
def cdx_query (resp : Option (List CdxRow)) : List CdxRow :=
  match resp with
  | none => []
  | some rows => rows.drop 1

/-- Source lines 296-351: `get_all_records`.  `N = none` models
`no_of_captures = -1` (no sampling); `N = some n` models a configured
capture limit `n ≥ 0`.  Each surviving record fans out into one
`(timestamp, original + '/' + topic)` pair per topic. -/
def get_all_records (resp : Option (List CdxRow)) (N : Option Nat) :
    List (List Char × List Char) :=
  let records := cdx_query resp
  if records.isEmpty then []
  else
    let records :=
      match N with
      | some n => sampleGroups n records
      | none => records
    concatMap (fun r => TOPICS.map (fun t => (r.ts, r.original ++ '/' :: t))) records

/-- Source lines 353-402: `get_all_article_links`.  Fetching one archived
snapshot page and extracting its candidate links is the oracle
`fetchLinks` (`None` models a failed fetch, whose links are skipped); the
flat candidate list is then aggregated into variant groups. -/
def get_all_article_links
    (fetchLinks : List Char × List Char → Option (List (List Char)))
    (records : List (List Char × List Char)) : List (List (List Char)) :=
  get_article_link_groups (concatMap (fun rcd => (fetchLinks rcd).getD []) records)

/-- Source lines 186-274: `process_article_url`, with the per-variant fetch
(`safe_get`: `none` on failure, else status and page) and the page-parse /
field-extraction body (everything inside the `try` after the status check;
an `Except.error` models any raised exception) as oracles.  Variants are
tried in order; the first to complete yields the record; a failing variant
is logged and skipped; if all fail the function returns `None`. -/
def process_article_url {π α : Type}
    (fetch : List Char → Option (Nat × π))
    (parse : List Char → π → Except PyErr α) : List (List Char) → Option α
  | [] => none
  | u :: rest =>
    match fetch u with
    | none => process_article_url fetch parse rest
    | some (status, page) =>
      if status ≠ 200 then process_article_url fetch parse rest
      else
        match parse u page with
        | Except.ok r => some r
        | Except.error _ => process_article_url fetch parse rest

/-- The outcome of one variant attempt in `process_article_url`: `none` on
fetch failure, non-200 status, or a parse error; `some` on success. -/
def attemptVariant {π α : Type}
    (fetch : List Char → Option (Nat × π))
    (parse : List Char → π → Except PyErr α) (u : List Char) : Option α :=
  match fetch u with
  | none => none
  | some (status, page) =>
    if status ≠ 200 then none else (parse u page).toOption

/-- Source lines 420-431: the extraction loop of `download` — every variant
group is processed and only non-`None` results are appended. -/
def collectArticles {π α : Type}
    (fetch : List Char → Option (Nat × π))
    (parse : List Char → π → Except PyErr α) : List (List (List Char)) → List α
  | [] => []
  | g :: gs =>
    match process_article_url fetch parse g with
    | some r => r :: collectArticles fetch parse gs
    | none => collectArticles fetch parse gs

/-- Source lines 404-436: `download` — fetch the index, discover and
aggregate article links, return `[]` when no links were found, otherwise
extract the articles. -/
def download {π α : Type} (resp : Option (List CdxRow)) (N : Option Nat)
    (fetchLinks : List Char × List Char → Option (List (List Char)))
    (fetch : List Char → Option (Nat × π))
    (parse : List Char → π → Except PyErr α) : List α :=
  let records := get_all_records resp N
  let groups := get_all_article_links fetchLinks records
  if groups.isEmpty then [] else collectArticles fetch parse groups

/-! ## Substring lemmas -/

theorem isPrefixOf_iff_exists {l m : List Char} :
    l.isPrefixOf m = true ↔ ∃ t, l ++ t = m := by
  induction l generalizing m with
  | nil => simp [List.isPrefixOf]
  | cons a as ih =>
    cases m with
    | nil => simp [List.isPrefixOf]
    | cons b bs =>
      simp only [List.isPrefixOf, Bool.and_eq_true, beq_iff_eq, ih,
        List.cons_append, List.cons.injEq]
      constructor
      · rintro ⟨rfl, t, rfl⟩; exact ⟨t, rfl, rfl⟩
      · rintro ⟨t, rfl, rfl⟩; exact ⟨rfl, t, rfl⟩

theorem occursB_iff_exists {sep s : List Char} :
    occursB sep s = true ↔ ∃ p q, s = p ++ sep ++ q := by
  induction s with
  | nil =>
    constructor
    · intro h
      cases sep with
      | nil => exact ⟨[], [], rfl⟩
      | cons a as => simp [occursB, List.isEmpty] at h
    · rintro ⟨p, q, h⟩
      rcases List.append_eq_nil.mp h.symm with ⟨h1, rfl⟩
      rcases List.append_eq_nil.mp h1 with ⟨rfl, rfl⟩
      rfl
  | cons c rest ih =>
    simp only [occursB, Bool.or_eq_true, isPrefixOf_iff_exists, ih]
    constructor
    · rintro (⟨t, ht⟩ | ⟨p, q, rfl⟩)
      · exact ⟨[], t, ht.symm⟩
      · exact ⟨c :: p, q, rfl⟩
    · rintro ⟨p, q, hpq⟩
      cases p with
      | nil => exact Or.inl ⟨q, by simpa using hpq.symm⟩
      | cons c' p' =>
        simp only [List.cons_append, List.cons.injEq] at hpq
        exact Or.inr ⟨p', q, hpq.2⟩

theorem occursB_of_drop {sep s : List Char} {k : Nat}
    (h : occursB sep (s.drop k) = true) : occursB sep s = true := by
  rcases occursB_iff_exists.mp h with ⟨p, q, hd⟩
  refine occursB_iff_exists.mpr ⟨s.take k ++ p, q, ?_⟩
  conv_lhs => rw [← List.take_append_drop k s, hd]
  simp [List.append_assoc]

theorem occursB_append_right {a b s : List Char}
    (h : occursB (a ++ b) s = true) : occursB b s = true := by
  rcases occursB_iff_exists.mp h with ⟨p, q, hd⟩
  exact occursB_iff_exists.mpr ⟨p ++ a, q, by rw [hd]; simp⟩

theorem occursB_head_mem {c : Char} {cs s : List Char}
    (h : occursB (c :: cs) s = true) : c ∈ s := by
  rcases occursB_iff_exists.mp h with ⟨p, q, rfl⟩
  simp

theorem afterLastOccAux_eq_none {sep s : List Char} (hsep : sep ≠ []) :
    afterLastOccAux sep s = none ↔ occursB sep s = false := by
  induction s with
  | nil =>
    constructor
    · intro _
      cases sep with
      | nil => cases hsep rfl
      | cons a as => rfl
    · intro _
      rfl
  | cons c rest ih =>
    simp only [afterLastOccAux, occursB]
    cases hr : afterLastOccAux sep rest with
    | some r => simp [ih.symm, hr]
    | none =>
      have hrest : occursB sep rest = false := ih.mp hr
      by_cases hp : sep.isPrefixOf (c :: rest) = true
      · simp [hp, hrest]
      · simp [Bool.of_not_eq_true hp, hrest]

theorem afterLastOccAux_not_occurs {sep s r : List Char} (hsep : sep ≠ [])
    (h : afterLastOccAux sep s = some r) : occursB sep r = false := by
  induction s with
  | nil => simp [afterLastOccAux] at h
  | cons c rest ih =>
    simp only [afterLastOccAux] at h
    cases hr : afterLastOccAux sep rest with
    | some r' =>
      rw [hr] at h
      cases h
      exact ih hr
    | none =>
      rw [hr] at h
      by_cases hp : sep.isPrefixOf (c :: rest) = true
      · rw [if_pos hp] at h
        cases h
        have hrest : occursB sep rest = false := (afterLastOccAux_eq_none hsep).mp hr
        cases hq : occursB sep (rest.drop (sep.length - 1)) with
        | false => rfl
        | true => rw [occursB_of_drop hq] at hrest; cases hrest
      · rw [if_neg hp] at h; cases h

/-- Stripping the suffix after the last `https://` is idempotent: the
returned suffix contains no further occurrence of the separator. -/
theorem afterLastOcc_idem {sep u : List Char} (hsep : sep ≠ []) :
    afterLastOcc sep (afterLastOcc sep u) = afterLastOcc sep u := by
  cases h : afterLastOccAux sep u with
  | none =>
    have h1 : afterLastOcc sep u = u := by simp only [afterLastOcc, h]; rfl
    rw [h1]
    exact h1
  | some r =>
    have h1 : afterLastOcc sep u = r := by simp only [afterLastOcc, h]; rfl
    have h2 : afterLastOccAux sep r = none :=
      (afterLastOccAux_eq_none hsep).mpr (afterLastOccAux_not_occurs hsep h)
    rw [h1]
    simp only [afterLastOcc, h2]
    rfl

/-! ## C1 — keyword filtering -/

/-- C1: on the keyword string `"wsj-markets,LINK|123,US:AAPL,factset-data"`
the keyword section of `process_article_url` as written raises `TypeError`
(`re.compile` is handed a Python list), so no record with the claimed
fields is ever produced; the intended filter — the eight exclusion
patterns combined by alternation, as the code's comments and the spec
describe — yields exactly the claimed `keywords == "-markets,US:AAPL"` and
`companies == "US:AAPL"`. -/
theorem c1_keyword_compile_bug :
    keywordSectionCode (r"wsj-markets,LINK|123,US:AAPL,factset-data").data
      = Except.error PyErr.typeError
    ∧ keywordPipeline (r"wsj-markets,LINK|123,US:AAPL,factset-data").data
      = ((r"-markets,US:AAPL").data, (r"US:AAPL").data) := by
  exact ⟨rfl, by decide⟩

/-! ## C2 — date fallback -/

/-- C2: the date normalisation of `process_article_url` stores `''` for
*every* parser-detected publish date (the `isinstance(date, str)` test
fails on a `datetime`, so the `else` branch replaces it with `None`),
contradicting the claimed ISO rendering; the 8-digit `article.id`
fallback and the invalid-date-to-empty-string behaviour are as claimed. -/
theorem c2_date_publish_discarded :
    (∀ articleId : List Char,
      dateField (some ⟨2025, 1, 10⟩) articleId = Except.ok [])
    ∧ dateField none (r"LINK20250110").data = Except.ok (r"2025-01-10").data
    ∧ dateField none (r"id99999999").data = Except.ok [] := by
  refine ⟨fun _ => rfl, rfl, rfl⟩

/-! ## C4 — timestamp field -/

/-- C4: the value stored in the `timestamp` field is the Python *list*
returned by `re.findall(r'\d{14}', url)` — a singleton list on the usual
archive URL and the empty list when no 14-digit run exists — not the
claimed string (first match or `''`). -/
theorem c4_timestamp_is_list :
    timestampField
        (r"https://web.archive.org/web/20250110123456/https://www.marketwatch.com/story/x-12345").data
      = [(r"20250110123456").data]
    ∧ timestampField (r"https://www.marketwatch.com/story/x-12345").data = [] := by
  exact ⟨by decide, by decide⟩

/-! ## C5 — article heuristic -/

/-- C5 counterexample: on `https://site/a-b/story12345678` the last path
segment `story12345678` contains no '-', so the claim's classifier says
"not an article", but `is_article` takes the substring after the last '-'
of the whole scheme-stripped URL (`b/story12345678`, crossing the '/'),
counts 8 digits and classifies it as an article. -/
theorem c5_last_segment_mismatch :
    is_article (r"https://site/a-b/story12345678").data = true
    ∧ isArticleClaimed (r"https://site/a-b/story12345678").data = false := by
  exact ⟨by decide, by decide⟩

/-- C5 amended: `is_article` classifies a URL as an article iff, after
stripping everything up to and including the last `https://`, the
remaining string contains a '-' and the substring after its final '-'
(taken over the whole remaining string, path separators included, not just
the last path segment) contains strictly more than 3 digit characters; in
particular a URL ending in `-12345` is an article while `-12` and `-123`
endings are not. -/
theorem c5_digit_tail_heuristic :
    (∀ u : List Char, is_article u = isArticleAmended u)
    ∧ is_article (r"https://www.marketwatch.com/story/story-title-12345").data = true
    ∧ is_article (r"https://www.marketwatch.com/story/story-title-12").data = false
    ∧ is_article (r"https://www.marketwatch.com/story/story-title-123").data = false := by
  refine ⟨fun u => ?_, by decide, by decide, by decide⟩
  simp only [is_article, isArticleTail, isArticleAmended]
  cases h : (afterLastOcc httpsPat u).contains '-' <;> simp [h]

/-! ## C3 — link aggregation -/

/-- C3 counterexample: the aggregation key `x.rsplit('https://', 1)[-1]`
strips only `https://`; an `http://` URL is left whole.  The pair
`http://site/a/story-123456` / `https://site/a/story-123456` (same path,
different scheme) therefore gets two distinct keys and two singleton
variant groups — not the single two-variant group the claim states. -/
theorem c3_http_https_two_groups :
    get_article_link_groups
        [(r"http://site/a/story-123456").data, (r"https://site/a/story-123456").data]
      = [[(r"http://site/a/story-123456").data], [(r"https://site/a/story-123456").data]] := by
  decide

/-- C3 amended: the canonical key is the substring after the last
`https://` (only the `https://` scheme is stripped; `http://` URLs keep
it, so an http/https pair of the same path falls into two distinct
groups); any two candidate links with the *same* canonical key — e.g. two
archive captures of the same `https` URL — are aggregated into exactly one
variant group holding both raw URLs in first-seen order. -/
theorem c3_same_key_one_group (u1 u2 : List Char)
    (h : canonicalKey u2 = canonicalKey u1) :
    get_article_link_groups [u1, u2] = [[u1, u2]] := by
  simp only [get_article_link_groups, List.map_cons, List.map_nil, h]
  rw [List.dedup_cons_of_mem (by simp)]
  simp [List.insertionSort, List.orderedInsert, List.filter, h]

/-- C3 amended witness: two archive captures of the same article URL land
in one group with both variants in first-seen order. -/
theorem c3_same_key_one_group_witness :
    get_article_link_groups
        [(r"https://web.archive.org/web/20250110120000/https://www.marketwatch.com/story/a-12345").data,
         (r"https://web.archive.org/web/20250111130000/https://www.marketwatch.com/story/a-12345").data]
      = [[(r"https://web.archive.org/web/20250110120000/https://www.marketwatch.com/story/a-12345").data,
          (r"https://web.archive.org/web/20250111130000/https://www.marketwatch.com/story/a-12345").data]] :=
  c3_same_key_one_group _ _ (by decide)

/-! ## C10 — invariance under archive wrapping -/

/-- `https://` has no non-trivial border: no proper non-empty prefix of it
is also a suffix.  (This is what rules out occurrences of the separator
straddling the seam in `p ++ sep ++ r`.) -/
theorem occursB_drop_append {sep r : List Char}
    (hnb : ∀ l : Nat, l < sep.length → 0 < l →
      sep.take l ≠ sep.drop (sep.length - l))
    (hr : occursB sep r = false) {j : Nat} (hj : 0 < j) (hjle : j ≤ sep.length) :
    occursB sep (sep.drop j ++ r) = false := by
  by_contra hocc
  rw [Bool.not_eq_false] at hocc
  rcases occursB_iff_exists.mp hocc with ⟨p, q, e⟩
  rw [List.append_assoc] at e
  by_cases hp : sep.length - j ≤ p.length
  · -- the occurrence lies entirely inside `r`
    have h0 : (sep.drop j).drop (sep.length - j) = [] := by
      rw [List.drop_drop]
      have hj' : j + (sep.length - j) = sep.length := by omega
      rw [hj', List.drop_length]
    have this1 := congrArg (List.drop (sep.length - j)) e
    rw [List.drop_append_eq_append_drop, List.drop_append_eq_append_drop, h0,
      List.nil_append, List.length_drop, Nat.sub_self, List.drop_zero,
      Nat.sub_eq_zero_of_le hp, List.drop_zero] at this1
    rw [occursB_iff_exists.mpr
      ⟨p.drop (sep.length - j), q, by rw [this1]; simp [List.append_assoc]⟩] at hr
    cases hr
  · -- the occurrence starts inside the dropped separator: extract a border
    push_neg at hp
    have e2 : (sep.drop j).drop p.length ++ r = sep ++ q := by
      have this2 := congrArg (List.drop p.length) e
      rw [List.drop_append_eq_append_drop, List.drop_append_eq_append_drop,
        List.length_drop,
        Nat.sub_eq_zero_of_le (by omega : p.length ≤ sep.length - j),
        List.drop_zero, Nat.sub_self, List.drop_zero, List.drop_length,
        List.nil_append] at this2
      exact this2
    set l := sep.length - j - p.length with hl
    have hlen : ((sep.drop j).drop p.length).length = l := by
      simp only [List.length_drop]
    have hborder : sep.take l = sep.drop (sep.length - l) := by
      have t1 : (((sep.drop j).drop p.length) ++ r).take l = (sep.drop j).drop p.length := by
        rw [← hlen]
        exact List.take_left _ _
      have t3 := congrArg (List.take l) e2
      rw [t1, List.take_append_of_le_length (by omega : l ≤ sep.length)] at t3
      have harith : sep.length - l = j + p.length := by omega
      rw [harith, ← List.drop_drop]
      exact t3.symm
    exact hnb l (by omega) (by omega) hborder

/-- The suffix after the last `sep` in `p ++ sep ++ r` is exactly `r`,
provided `sep` does not occur in `r` and has no non-trivial border. -/
theorem afterLastOccAux_append {sep : List Char} (hsep : sep ≠ [])
    (hnb : ∀ l : Nat, l < sep.length → 0 < l →
      sep.take l ≠ sep.drop (sep.length - l))
    (p r : List Char) (hr : occursB sep r = false) :
    afterLastOccAux sep (p ++ sep ++ r) = some r := by
  induction p with
  | nil =>
    rw [List.nil_append]
    cases sep with
    | nil => cases hsep rfl
    | cons s0 sep' =>
      have htail : occursB (s0 :: sep') ((s0 :: sep').drop 1 ++ r) = false :=
        occursB_drop_append hnb hr (by omega) (by simp)
      simp only [List.drop_one, List.tail_cons] at htail
      simp only [List.cons_append, List.append_eq, afterLastOccAux]
      rw [(afterLastOccAux_eq_none hsep).mpr htail]
      rw [if_pos (isPrefixOf_iff_exists.mpr ⟨r, by simp⟩)]
      have hdr : (sep' ++ r).drop ((s0 :: sep').length - 1) = r := by
        simp only [List.length_cons, Nat.add_sub_cancel]
        exact List.drop_left sep' r
      rw [hdr]
  | cons a p' ih =>
    simp only [List.cons_append, List.append_eq, afterLastOccAux, ih]

/-- `rsplit('https://', 1)[-1]` on `p ++ sep ++ r` with no occurrence in
`r` returns `r`. -/
theorem afterLastOcc_wrap {sep : List Char} (hsep : sep ≠ [])
    (hnb : ∀ l : Nat, l < sep.length → 0 < l →
      sep.take l ≠ sep.drop (sep.length - l))
    (p r : List Char) (hr : occursB sep r = false) :
    afterLastOcc sep (p ++ sep ++ r) = r := by
  simp only [afterLastOcc, afterLastOccAux_append hsep hnb p r hr]
  rfl

/-- C10: `is_article` is invariant under archive wrapping — for every URL
of the form `p ++ "https://" ++ r` with no further `https://` in `r`
(e.g. the Wayback wrapper `https://web.archive.org/web/{timestamp}/` in
front of the original URL), it classifies exactly as it does on
`"https://" ++ r`: digits in the wrapper prefix never reach the
more-than-3-digits test. -/
theorem c10_archive_wrapper_invariant (p r : List Char)
    (hr : occursB httpsPat r = false) :
    is_article (p ++ httpsPat ++ r) = is_article (httpsPat ++ r) := by
  have h8 : httpsPat ≠ [] := by decide
  have hnb : ∀ l : Nat, l < httpsPat.length → 0 < l →
      httpsPat.take l ≠ httpsPat.drop (httpsPat.length - l) := by decide
  simp only [is_article]
  rw [afterLastOcc_wrap h8 hnb p r hr]
  conv_rhs =>
    rw [show httpsPat ++ r = [] ++ httpsPat ++ r from rfl,
      afterLastOcc_wrap h8 hnb [] r hr]

/-- C10 witness: wrapping a MarketWatch story URL with a Wayback prefix
containing a 14-digit timestamp does not change the classification. -/
theorem c10_archive_wrapper_invariant_witness :
    occursB httpsPat (r"www.marketwatch.com/story/x-12345").data = false
    ∧ is_article ((r"https://web.archive.org/web/20250110123456/").data
          ++ httpsPat ++ (r"www.marketwatch.com/story/x-12345").data)
      = is_article (httpsPat ++ (r"www.marketwatch.com/story/x-12345").data) :=
  ⟨by decide, c10_archive_wrapper_invariant _ _ (by decide)⟩

/-! ## C6 — first-variant success, per-article failure containment -/

theorem process_cons_eq_attempt {π α : Type}
    (fetch : List Char → Option (Nat × π))
    (parse : List Char → π → Except PyErr α) (u : List Char) (rest : List (List Char)) :
    process_article_url fetch parse (u :: rest)
      = match attemptVariant fetch parse u with
        | some r => some r
        | none => process_article_url fetch parse rest := by
  simp only [process_article_url, attemptVariant]
  cases hf : fetch u with
  | none => rfl
  | some sp =>
    obtain ⟨status, page⟩ := sp
    by_cases hs : status ≠ 200
    · simp [hs]
    · simp only [if_neg hs]
      cases parse u page <;> rfl

/-- C6: `process_article_url` tries the variants in order and returns the
record of the first variant whose fetch succeeds with status 200 and whose
parse raises nothing; when every variant fails (fetch failure, non-200
status, or a parser error) it returns `None` — it is a total function into
`Option`, no exception propagates; and the `download` loop appends exactly
the non-`None` results, continuing over all remaining groups. -/
theorem c6_first_success_and_none {π α : Type}
    (fetch : List Char → Option (Nat × π))
    (parse : List Char → π → Except PyErr α) :
    (∀ (us : List (List Char)) (u : List Char) (vs : List (List Char)) (r : α),
        (∀ v ∈ us, attemptVariant fetch parse v = none) →
        attemptVariant fetch parse u = some r →
        process_article_url fetch parse (us ++ u :: vs) = some r)
    ∧ (∀ us : List (List Char),
        (∀ v ∈ us, attemptVariant fetch parse v = none) →
        process_article_url fetch parse us = none)
    ∧ (∀ groups : List (List (List Char)),
        collectArticles fetch parse groups
          = (groups.map (process_article_url fetch parse)).filterMap id) := by
  refine ⟨?_, ?_, ?_⟩
  · intro us u vs r hall hu
    induction us with
    | nil =>
      rw [List.nil_append, process_cons_eq_attempt, hu]
    | cons w ws ih =>
      rw [List.cons_append, process_cons_eq_attempt, hall w (by simp)]
      exact ih (fun v hv => hall v (by simp [hv]))
  · intro us hall
    induction us with
    | nil => rfl
    | cons w ws ih =>
      rw [process_cons_eq_attempt, hall w (by simp)]
      exact ih (fun v hv => hall v (by simp [hv]))
  · intro groups
    induction groups with
    | nil => rfl
    | cons g gs ih =>
      simp only [collectArticles, List.map_cons, List.filterMap_cons]
      cases process_article_url fetch parse g <;> simp [ih]

/-- C6 witness: with a fetch oracle failing on `a`, returning 404 on `b`,
200 otherwise, and a parser that succeeds only on `d`, the variants are
tried in order (first success `d` wins), an all-failing list yields `None`,
and the download loop keeps exactly the non-`None` results. -/
theorem c6_first_success_and_none_witness :
    (process_article_url
        (fun u => if u = (r"a").data then none
                  else if u = (r"b").data then some (404, ())
                  else some (200, ()))
        (fun u _ => if u = (r"d").data then Except.ok 7
                    else Except.error PyErr.typeError)
        [(r"a").data, (r"b").data, (r"d").data] = some 7)
    ∧ (process_article_url
        (fun u => if u = (r"a").data then none
                  else if u = (r"b").data then some (404, ())
                  else some (200, ()))
        (fun u _ => if u = (r"d").data then Except.ok 7
                    else Except.error PyErr.typeError)
        [(r"a").data, (r"b").data, (r"c").data] = none)
    ∧ (collectArticles
        (fun u => if u = (r"a").data then none
                  else if u = (r"b").data then some (404, ())
                  else some (200, ()))
        (fun u _ => if u = (r"d").data then Except.ok 7
                    else Except.error PyErr.typeError)
        [[(r"a").data, (r"b").data], [(r"d").data]] = [7]) := by
  refine ⟨(c6_first_success_and_none _ _).1 [(r"a").data, (r"b").data] (r"d").data [] 7
      (by decide) (by decide),
    (c6_first_success_and_none _ _).2.1 [(r"a").data, (r"b").data, (r"c").data] (by decide),
    ?_⟩
  rw [(c6_first_success_and_none _ _).2.2]
  decide

/-! ## C7 — empty index is recoverable -/

/-- C7: when the index fetch fails (`resp = none`) or the response holds
zero data rows after the header row is discarded, `cdx_query` returns `[]`
without raising, and a whole crawl over that empty index completes
normally with an empty article list. -/
theorem c7_empty_index_empty_crawl {π α : Type} (resp : Option (List CdxRow))
    (N : Option Nat)
    (fetchLinks : List Char × List Char → Option (List (List Char)))
    (fetch : List Char → Option (Nat × π))
    (parse : List Char → π → Except PyErr α)
    (h : resp = none ∨ ∃ rows, resp = some rows ∧ rows.drop 1 = []) :
    cdx_query resp = [] ∧ download resp N fetchLinks fetch parse = [] := by
  have hc : cdx_query resp = [] := by
    rcases h with rfl | ⟨rows, rfl, hr⟩
    · rfl
    · simpa [cdx_query] using hr
  refine ⟨hc, ?_⟩
  simp [download, get_all_records, hc, get_all_article_links,
    get_article_link_groups, concatMap]

/-- C7 witness: an index response holding only the header row yields an
empty record list and an empty, error-free crawl. -/
theorem c7_empty_index_empty_crawl_witness :
    cdx_query (some [⟨(r"timestamp").data, (r"original").data⟩]) = []
    ∧ download (some [⟨(r"timestamp").data, (r"original").data⟩]) (some 5)
        (fun _ => none) (fun _ => (none : Option (Nat × Unit)))
        (fun _ _ => (Except.error PyErr.typeError : Except PyErr Nat)) = [] :=
  c7_empty_index_empty_crawl _ _ _ _ _ (Or.inr ⟨_, rfl, rfl⟩)

/-! ## C8 — deterministic per-group sampling -/

theorem get_cons_eraseIdx_perm {α : Type} :
    ∀ (l : List α) (i : Nat) (h : i < l.length),
      (l.get ⟨i, h⟩ :: l.eraseIdx i).Perm l
  | a :: t, 0, _ => by simp [List.eraseIdx]
  | a :: t, i + 1, h => by
    simp only [List.get, List.eraseIdx]
    exact (List.Perm.swap a _ _).trans
      ((get_cons_eraseIdx_perm t i (Nat.lt_of_succ_lt_succ h)).cons a)

theorem sampleAux_length {α : Type} :
    ∀ (n seed : Nat) (xs : List α), (sampleAux n seed xs).length = min n xs.length
  | 0, _, _ => by simp [sampleAux]
  | _ + 1, _, [] => by simp [sampleAux]
  | n + 1, seed, x :: xs => by
    have hi : lcgNext seed % (xs.length + 1) < xs.length + 1 :=
      Nat.mod_lt _ (Nat.succ_pos _)
    simp only [sampleAux, List.length_cons]
    rw [sampleAux_length n (lcgNext seed) _, List.length_eraseIdx]
    simp only [List.length_cons]
    rw [if_pos hi]
    omega

theorem sampleAux_subperm {α : Type} :
    ∀ (n seed : Nat) (xs : List α), List.Subperm (sampleAux n seed xs) xs
  | 0, _, _ => List.nil_subperm
  | _ + 1, _, [] => List.nil_subperm
  | n + 1, seed, x :: xs => by
    have hi : lcgNext seed % (x :: xs).length < (x :: xs).length :=
      Nat.mod_lt _ (Nat.succ_pos _)
    simp only [sampleAux]
    have h1 : List.Subperm
        (sampleAux n (lcgNext seed) ((x :: xs).eraseIdx (lcgNext seed % (x :: xs).length)))
        ((x :: xs).eraseIdx (lcgNext seed % (x :: xs).length)) :=
      sampleAux_subperm n (lcgNext seed) _
    exact ((List.subperm_cons _).mpr h1).trans (get_cons_eraseIdx_perm _ _ hi).subperm

theorem filter_concatMap {α β : Type} (p : β → Bool) (f : α → List β) :
    ∀ L : List α, (concatMap f L).filter p = concatMap (fun a => (f a).filter p) L
  | [] => rfl
  | a :: as => by
    simp only [concatMap, List.filter_append]
    rw [filter_concatMap p f as]

theorem concatMap_congr {α β : Type} (f g : α → List β) :
    ∀ L : List α, (∀ a ∈ L, f a = g a) → concatMap f L = concatMap g L
  | [], _ => rfl
  | a :: as, h => by
    simp only [concatMap]
    rw [h a (List.mem_cons_self a as),
      concatMap_congr f g as (fun x hx => h x (List.mem_cons_of_mem a hx))]

theorem concatMap_ite {κ β : Type} [DecidableEq κ] (k : κ) (c : List β) :
    ∀ L : List κ, L.Nodup →
      concatMap (fun k' => if k' = k then c else []) L = if k ∈ L then c else []
  | [], _ => by simp [concatMap]
  | a :: L, hnd => by
    simp only [concatMap]
    by_cases ha : a = k
    · subst ha
      rw [if_pos rfl, concatMap_ite a c L (List.nodup_cons.mp hnd).2,
        if_neg (List.nodup_cons.mp hnd).1, List.append_nil,
        if_pos (List.mem_cons_self a L)]
    · rw [if_neg ha, List.nil_append, concatMap_ite k c L (List.nodup_cons.mp hnd).2]
      by_cases hk : k ∈ L
      · rw [if_pos hk, if_pos (List.mem_cons_of_mem a hk)]
      · have hna : ¬ k ∈ a :: L := by
          simp only [List.mem_cons]
          rintro (rfl | hmem)
          · exact ha rfl
          · exact hk hmem
        rw [if_neg hk, if_neg hna]

/-- C8: with a configured capture limit `n ≥ 0`, the records selected by
the sampling stage from each (capture date, clean_url) group are a
sub-multiset of that group (selection without replacement) of size exactly
`min n (group size)`; in particular a group smaller than `n` contributes a
permutation of all its members.  (The embedding is a pure function, so
repeated runs on the same input and `n` — the claim's fixed-seed
determinism — return the identical selection.) -/
theorem c8_group_sampling (n : Nat) (rows : List CdxRow) (k : List Char × List Char) :
    List.Subperm ((sampleGroups n rows).filter (fun r => decide (rowKey r = k)))
      (rows.filter (fun r => decide (rowKey r = k)))
    ∧ ((sampleGroups n rows).filter (fun r => decide (rowKey r = k))).length
        = min n (rows.filter (fun r => decide (rowKey r = k))).length
    ∧ ((rows.filter (fun r => decide (rowKey r = k))).length ≤ n →
        ((sampleGroups n rows).filter (fun r => decide (rowKey r = k))).Perm
          (rows.filter (fun r => decide (rowKey r = k)))) := by
  set sorted := List.insertionSort rowLe rows with hsorted
  set keys2 := List.insertionSort pairLe ((sorted.map rowKey).dedup) with hkeys2
  have hunf : sampleGroups n rows
      = concatMap
          (fun k' =>
            sampleSeeded
              (min n ((sorted.filter (fun r => decide (rowKey r = k'))).length))
              (sorted.filter (fun r => decide (rowKey r = k'))))
          keys2 := rfl
  have hsp : sorted.Perm rows := List.perm_insertionSort rowLe rows
  have hgperm : (sorted.filter (fun r => decide (rowKey r = k))).Perm
      (rows.filter (fun r => decide (rowKey r = k))) := hsp.filter _
  have hnodup : keys2.Nodup :=
    ((List.perm_insertionSort pairLe _).nodup_iff).mpr (List.nodup_dedup _)
  have hchunk : ∀ k' ∈ keys2,
      (sampleSeeded
          (min n ((sorted.filter (fun r => decide (rowKey r = k'))).length))
          (sorted.filter (fun r => decide (rowKey r = k')))).filter
        (fun r => decide (rowKey r = k))
      = if k' = k
        then sampleSeeded
            (min n ((sorted.filter (fun r => decide (rowKey r = k))).length))
            (sorted.filter (fun r => decide (rowKey r = k)))
        else [] := by
    intro k' _
    by_cases hkk : k' = k
    · subst hkk
      rw [if_pos rfl]
      apply List.filter_eq_self.mpr
      intro r hr
      have : r ∈ sorted.filter (fun r => decide (rowKey r = k')) :=
        (sampleAux_subperm _ _ _).subset hr
      simpa using (List.mem_filter.mp this).2
    · rw [if_neg hkk]
      apply List.filter_eq_nil_iff.mpr
      intro r hr
      have : r ∈ sorted.filter (fun r => decide (rowKey r = k')) :=
        (sampleAux_subperm _ _ _).subset hr
      have hrk : rowKey r = k' := by simpa using (List.mem_filter.mp this).2
      simp [hrk, hkk]
  have hmain : (sampleGroups n rows).filter (fun r => decide (rowKey r = k))
      = if k ∈ keys2
        then sampleSeeded
            (min n ((sorted.filter (fun r => decide (rowKey r = k))).length))
            (sorted.filter (fun r => decide (rowKey r = k)))
        else [] := by
    rw [hunf, filter_concatMap, concatMap_congr _ _ _ hchunk, concatMap_ite _ _ _ hnodup]
    by_cases hmem : k ∈ keys2
    · rw [if_pos hmem, if_pos hmem]
    · rw [if_neg hmem, if_neg hmem]
  by_cases hmem : k ∈ keys2
  · rw [hmain, if_pos hmem]
    have hsub : List.Subperm
        (sampleSeeded
          (min n ((sorted.filter (fun r => decide (rowKey r = k))).length))
          (sorted.filter (fun r => decide (rowKey r = k))))
        (rows.filter (fun r => decide (rowKey r = k))) :=
      (sampleAux_subperm _ _ _).trans hgperm.subperm
    have hlen : (sampleSeeded
        (min n ((sorted.filter (fun r => decide (rowKey r = k))).length))
        (sorted.filter (fun r => decide (rowKey r = k)))).length
        = min n ((rows.filter (fun r => decide (rowKey r = k))).length) := by
      simp only [sampleSeeded]
      rw [sampleAux_length, ← hgperm.length_eq]
      omega
    exact ⟨hsub, hlen, fun hle => hsub.perm_of_length_le (by omega)⟩
  · have hempty : rows.filter (fun r => decide (rowKey r = k)) = [] := by
      have hnone : sorted.filter (fun r => decide (rowKey r = k)) = [] := by
        apply List.filter_eq_nil_iff.mpr
        intro r hr
        intro hcontra
        apply hmem
        have hrk : rowKey r = k := by simpa using hcontra
        have : k ∈ sorted.map rowKey := List.mem_map.mpr ⟨r, hr, hrk⟩
        exact ((List.perm_insertionSort pairLe _).mem_iff).mpr
          ((List.mem_dedup).mpr this)
      have := hgperm.length_eq
      rw [hnone] at this
      exact List.length_eq_zero.mp this.symm
    rw [hmain, if_neg hmem, hempty]
    exact ⟨List.nil_subperm, by simp, fun _ => List.Perm.refl []⟩

/-- C8 witness: two captures of the same page on the same day form one
group; with limit 5 the group is smaller than the limit, so both members
are selected. -/
theorem c8_group_sampling_witness :
    ((sampleGroups 5
        [⟨(r"20250110120000").data, (r"https://www.marketwatch.com").data⟩,
         ⟨(r"20250110130000").data, (r"http://www.marketwatch.com/").data⟩]).filter
      (fun r => decide (rowKey r = ((r"20250110").data, (r"www.marketwatch.com").data)))).Perm
      ([⟨(r"20250110120000").data, (r"https://www.marketwatch.com").data⟩,
        ⟨(r"20250110130000").data, (r"http://www.marketwatch.com/").data⟩].filter
        (fun r => decide (rowKey r = ((r"20250110").data, (r"www.marketwatch.com").data)))) :=
  (c8_group_sampling 5 _ _).2.2 (by decide)

/-! ## C9 — canonicalisation idempotence -/

theorem pyReplaceFuel_id {old new : List Char} :
    ∀ (f : Nat) (s : List Char), occursB old s = false → pyReplaceFuel old new f s = s
  | f, [], _ => by cases f <;> rfl
  | 0, _ :: _, _ => rfl
  | f + 1, c :: rest, h => by
    have h2 : old.isPrefixOf (c :: rest) = false ∧ occursB old rest = false := by
      simpa only [occursB, Bool.or_eq_false_iff] using h
    simp only [pyReplaceFuel, h2.1, Bool.false_eq_true, if_false]
    rw [pyReplaceFuel_id f rest h2.2]

theorem pySplitChar_ne_nil (sep : Char) : ∀ s : List Char, pySplitChar sep s ≠ []
  | [] => by simp [pySplitChar]
  | c :: rest => by
    simp only [pySplitChar]
    by_cases h : c = sep <;> simp [h]

theorem pySplitChar_not_mem (sep : Char) :
    ∀ (s : List Char), ∀ g ∈ pySplitChar sep s, sep ∉ g
  | [], g, hg => by
    simp only [pySplitChar, List.mem_singleton] at hg
    subst hg
    simp
  | c :: rest, g, hg => by
    simp only [pySplitChar] at hg
    by_cases h : c = sep
    · rw [if_pos h] at hg
      rcases List.mem_cons.mp hg with rfl | hg'
      · simp
      · exact pySplitChar_not_mem sep rest g hg'
    · rw [if_neg h] at hg
      rcases List.mem_cons.mp hg with rfl | hg'
      · intro hmem
        rcases List.mem_cons.mp hmem with rfl | hmem'
        · exact h rfl
        · have hne := pySplitChar_ne_nil sep rest
          have hhead : (pySplitChar sep rest).headD [] ∈ pySplitChar sep rest := by
            cases hsp : pySplitChar sep rest with
            | nil => cases hne hsp
            | cons a as => simp
          exact pySplitChar_not_mem sep rest _ hhead hmem'
      · exact pySplitChar_not_mem sep rest g (List.mem_of_mem_tail hg')

theorem pySplitChar_append_cons (sep : Char) :
    ∀ (g t : List Char), sep ∉ g →
      pySplitChar sep (g ++ sep :: t) = g :: pySplitChar sep t
  | [], t, _ => by simp [pySplitChar]
  | a :: g', t, h => by
    have ha : ¬ a = sep := fun e => h (e ▸ List.mem_cons_self a g')
    simp only [List.cons_append, List.append_eq, pySplitChar]
    rw [pySplitChar_append_cons sep g' t (fun hm => h (List.mem_cons_of_mem a hm))]
    simp [if_neg ha]

theorem pySplitChar_no_sep (sep : Char) :
    ∀ g : List Char, sep ∉ g → pySplitChar sep g = [g]
  | [], _ => rfl
  | a :: g', h => by
    have ha : ¬ a = sep := fun e => h (e ▸ List.mem_cons_self a g')
    simp only [pySplitChar]
    rw [pySplitChar_no_sep sep g' (fun hm => h (List.mem_cons_of_mem a hm))]
    simp [if_neg ha]

theorem pySplitChar_joinSep (sep : Char) :
    ∀ gs : List (List Char), gs ≠ [] → (∀ g ∈ gs, sep ∉ g) →
      pySplitChar sep (joinSep sep gs) = gs
  | [], h, _ => absurd rfl h
  | [g], _, hall => by
    simp only [joinSep]
    exact pySplitChar_no_sep sep g (hall g (List.mem_singleton_self g))
  | g :: g' :: gs, _, hall => by
    simp only [joinSep]
    rw [pySplitChar_append_cons sep g _ (hall g (List.mem_cons_self g _))]
    rw [pySplitChar_joinSep sep (g' :: gs) (by simp)
      (fun x hx => hall x (List.mem_cons_of_mem g hx))]

theorem occursB_double_append {c : Char} :
    ∀ (g s : List Char), c ∉ g → occursB [c, c] (g ++ s) = occursB [c, c] s
  | [], _, _ => rfl
  | a :: g', s, h => by
    have ha : ¬ c = a := fun e => h (e ▸ List.mem_cons_self a g')
    simp only [List.cons_append, List.append_eq, occursB]
    rw [occursB_double_append g' s (fun hm => h (List.mem_cons_of_mem a hm))]
    have hp : [c, c].isPrefixOf (a :: (g' ++ s)) = false := by
      simp [List.isPrefixOf, ha]
    rw [hp, Bool.false_or]

theorem joinSep_cons_eq (c : Char) (g : List Char) (gs : List (List Char)) :
    ∃ rest : List Char, joinSep c (g :: gs) = g ++ rest := by
  cases gs with
  | nil => exact ⟨[], by simp [joinSep]⟩
  | cons g' gs' => exact ⟨c :: joinSep c (g' :: gs'), rfl⟩

theorem occursB_double_joinSep {c : Char} :
    ∀ gs : List (List Char), (∀ g ∈ gs, g ≠ [] ∧ c ∉ g) →
      occursB [c, c] (joinSep c gs) = false
  | [], _ => rfl
  | [g], hall => by
    simp only [joinSep]
    have h2 := occursB_double_append g [] (hall g (List.mem_singleton_self g)).2
    rw [List.append_nil] at h2
    rw [h2]
    rfl
  | g :: g' :: gs, hall => by
    simp only [joinSep]
    rw [occursB_double_append g _ (hall g (List.mem_cons_self g _)).2]
    simp only [occursB]
    rw [occursB_double_joinSep (g' :: gs) (fun x hx => hall x (List.mem_cons_of_mem g hx))]
    have hpre : [c, c].isPrefixOf (c :: joinSep c (g' :: gs)) = false := by
      obtain ⟨hne, hnm⟩ := hall g' (List.mem_cons_of_mem g (List.mem_cons_self g' gs))
      obtain ⟨rest, hrest⟩ := joinSep_cons_eq c g' gs
      rw [hrest]
      cases g' with
      | nil => cases hne rfl
      | cons b g'' =>
        have hcb : ¬ c = b := fun e => hnm (e ▸ List.mem_cons_self b g'')
        simp [List.isPrefixOf, hcb]
    rw [hpre, Bool.false_or]

theorem dropWhile_dropWhile (p : Char → Bool) (s : List Char) :
    (s.dropWhile p).dropWhile p = s.dropWhile p := by
  induction s with
  | nil => rfl
  | cons a t ih =>
    rw [List.dropWhile_cons]
    by_cases hp : p a = true
    · rw [if_pos hp]
      exact ih
    · rw [if_neg hp, List.dropWhile_cons, if_neg hp]

theorem dropWhile_eq_self_of_headq {p : Char → Bool} {s : List Char}
    (h : ∀ a, s.head? = some a → p a = false) : s.dropWhile p = s := by
  cases s with
  | nil => rfl
  | cons a t => simp [List.dropWhile_cons, h a rfl]

theorem headq_dropWhile_not (p : Char → Bool) :
    ∀ l : List Char, ∀ a, (l.dropWhile p).head? = some a → p a = false
  | [], a, h => by cases h
  | b :: t, a, h => by
    by_cases hb : p b = true
    · rw [List.dropWhile_cons, if_pos hb] at h
      exact headq_dropWhile_not p t a h
    · rw [List.dropWhile_cons, if_neg hb] at h
      have hba : b = a := by simpa using h
      rw [← hba]
      cases hpb : p b with
      | false => rfl
      | true => cases hb hpb

theorem exists_append_dropWhile (p : Char → Bool) :
    ∀ l : List Char, ∃ u, u ++ l.dropWhile p = l
  | [] => ⟨[], rfl⟩
  | a :: t => by
    by_cases h : p a = true
    · obtain ⟨u, hu⟩ := exists_append_dropWhile p t
      exact ⟨a :: u, by simp [List.dropWhile_cons, h, hu]⟩
    · exact ⟨[], by simp [List.dropWhile_cons, h]⟩

theorem getLastq_append_right (u : List Char) (d : List Char) (h : d ≠ []) :
    (u ++ d).getLast? = d.getLast? := by
  rw [← List.head?_reverse, ← List.head?_reverse, List.reverse_append]
  cases hd : d.reverse with
  | nil => cases h (by simpa using congrArg List.reverse hd)
  | cons b bs => simp [hd]

theorem getLastq_dropWhile (p : Char → Bool) (l : List Char)
    (h : l.dropWhile p ≠ []) : (l.dropWhile p).getLast? = l.getLast? := by
  obtain ⟨u, hu⟩ := exists_append_dropWhile p l
  conv_rhs => rw [← hu]
  rw [getLastq_append_right u _ h]

theorem pyStrip_idem (s : List Char) : pyStrip (pyStrip s) = pyStrip s := by
  simp only [pyStrip]
  set A := s.dropWhile Char.isWhitespace with hA
  set B := A.reverse.dropWhile Char.isWhitespace with hB
  have h1 : B.reverse.dropWhile Char.isWhitespace = B.reverse := by
    apply dropWhile_eq_self_of_headq
    intro a ha
    rw [List.head?_reverse] at ha
    by_cases hBn : B = []
    · rw [hBn] at ha
      cases ha
    · rw [hB, getLastq_dropWhile _ _ (hB ▸ hBn), List.getLast?_reverse] at ha
      exact headq_dropWhile_not _ _ a (hA ▸ ha)
  rw [h1, List.reverse_reverse]
  have h2 : B.dropWhile Char.isWhitespace = B := by
    rw [hB]
    exact dropWhile_dropWhile _ _
  rw [h2]

theorem not_mem_pyStrip {c : Char} {s : List Char} (h : c ∉ s) : c ∉ pyStrip s := by
  intro hmem
  apply h
  simp only [pyStrip] at hmem
  rw [List.mem_reverse] at hmem
  have h1 := (List.dropWhile_sublist _).subset hmem
  rw [List.mem_reverse] at h1
  exact (List.dropWhile_sublist _).subset h1

theorem cleanUrl_idem (x : List Char) : cleanUrl (cleanUrl x) = cleanUrl x := by
  simp only [cleanUrl]
  set segs := ((pySplitChar '/'
      (pyReplace httpsPat [] (pyReplace httpPat [] x))).map pyStrip).filter
      (fun i => !i.isEmpty) with hsegs
  have hprop : ∀ g ∈ segs, g ≠ [] ∧ ('/' : Char) ∉ g ∧ pyStrip g = g := by
    intro g hg
    rw [hsegs] at hg
    obtain ⟨hmem, hfilt⟩ := List.mem_filter.mp hg
    obtain ⟨g0, hg0, rfl⟩ := List.mem_map.mp hmem
    refine ⟨?_, ?_, pyStrip_idem g0⟩
    · intro hnil
      rw [hnil] at hfilt
      simp at hfilt
    · exact not_mem_pyStrip (pySplitChar_not_mem '/' _ g0 hg0)
  have hnodouble : occursB [('/' : Char), '/'] (joinSep '/' segs) = false :=
    occursB_double_joinSep segs (fun g hg => ⟨(hprop g hg).1, (hprop g hg).2.1⟩)
  have hnohttp : occursB httpPat (joinSep '/' segs) = false := by
    cases ho : occursB httpPat (joinSep '/' segs) with
    | false => rfl
    | true =>
      have hsplit : httpPat = (r"http:").data ++ [('/' : Char), '/'] := by decide
      rw [hsplit] at ho
      rw [occursB_append_right ho] at hnodouble
      cases hnodouble
  have hnohttps : occursB httpsPat (joinSep '/' segs) = false := by
    cases ho : occursB httpsPat (joinSep '/' segs) with
    | false => rfl
    | true =>
      have hsplit : httpsPat = (r"https:").data ++ [('/' : Char), '/'] := by decide
      rw [hsplit] at ho
      rw [occursB_append_right ho] at hnodouble
      cases hnodouble
  have hrep1 : pyReplace httpPat [] (joinSep '/' segs) = joinSep '/' segs :=
    pyReplaceFuel_id _ _ hnohttp
  have hrep2 : pyReplace httpsPat [] (joinSep '/' segs) = joinSep '/' segs :=
    pyReplaceFuel_id _ _ hnohttps
  rw [hrep1, hrep2]
  by_cases hnil : segs = []
  · rw [hnil]
    rfl
  · rw [pySplitChar_joinSep '/' segs hnil (fun g hg => (hprop g hg).2.1)]
    have hmap : segs.map pyStrip = segs := by
      conv_rhs => rw [← List.map_id segs]
      exact List.map_congr_left (fun g hg => (hprop g hg).2.2)
    rw [hmap]
    have hfilt : segs.filter (fun i => !i.isEmpty) = segs :=
      List.filter_eq_self.mpr (fun g hg => by
        cases hg' : g with
        | nil => cases (hprop g hg).1 hg'
        | cons b bs => rfl)
    rw [hfilt]

/-- C9: both canonicalisations of the source are idempotent — the
aggregation key `rsplit('https://', 1)[-1]` (lines 392-394) returns a
suffix containing no further `https://`, so re-applying it is a no-op, and
`clean_url` (lines 334-340) returns a string with no `//` (hence no
scheme substring), already-stripped and non-empty segments, so re-applying
it is also a no-op: `canonicalKey (canonicalKey u) = canonicalKey u` and
`cleanUrl (cleanUrl u) = cleanUrl u` for every URL `u`. -/
theorem c9_canonical_key_idem :
    ∀ u : List Char,
      canonicalKey (canonicalKey u) = canonicalKey u
      ∧ cleanUrl (cleanUrl u) = cleanUrl u :=
  fun u => ⟨afterLastOcc_idem (by decide), cleanUrl_idem u⟩

end MW
